import Mathlib

/-!
Verification development for the pre-pump detection and ranking pipeline
(`pre_pump_detector.py`, `analyzer_test.py`).

The orchestration code (`PrePumpDetector.analyze_symbol`, the batch loop of
`main`, the pandas sort of the rankings table, the signal-row extraction in
`analyze_coin`) is embedded directly from the source.  The analyzer libraries
(`libs/technical_analyzer.py`, `libs/volume_profile_analyzer.py`,
`libs/signal_analyzer.py`, `libs/fundamental_analyzer.py`,
`libs/pump_ranking_analyzer.py`) are not part of the repository snapshot, so
their behaviour is modelled from the specification; every such definition
carries a doc comment starting with `Modelled from the spec:`.

Prices and volumes are embedded as exact rationals (`ℚ`).
-/

/-- One OHLCV candle: the row format produced by the data fetcher
(`timestamp, open, high, low, close, volume`). -/
structure Candle where
  timestamp : Nat
  open_ : ℚ
  high : ℚ
  low : ℚ
  close : ℚ
  volume : ℚ
deriving DecidableEq

/-- A row of the analyzed DataFrame as consumed by the orchestration code:
after `signal_analyzer.detect_signals` every row carries a boolean
`pre_pump_signal` column plus the price/volume data the reporting code reads. -/
structure Row where
  pre_pump_signal : Bool
  close : ℚ
  volume : ℚ
deriving DecidableEq

/-- The analyzed DataFrame: an ordered list of rows. -/
abbrev Frame := List Row

/-- The ranking dictionary returned by `PumpRankingAnalyzer.analyze_symbol`;
`main` reads `ranking['scores']['total_score']` from it. -/
structure Ranking where
  total_score : ℚ
deriving DecidableEq

/-- Embeds `PrePumpDetector.analyze_symbol` (src/pre_pump_detector.py:20-45).
The data fetcher and the analyzer stages are parameters: `fetchData` returns
`none` exactly when `get_historical_data` returns `None`; `analyze_data`,
`detect` and `rank` stand for `signal_analyzer.analyze_data`,
`signal_analyzer.detect_signals` and `ranking_analyzer.analyze_symbol`.
If the fetch yields `none` the function returns `(none, none)` without
touching any analyzer; otherwise both components are produced. -/
def analyze_symbol (fetchData : String → String → Option Frame)
    (analyze_data detect : Frame → Frame) (rank : Frame → Ranking)
    (symbol timeframe : String) : Option Frame × Option Ranking :=
  match fetchData symbol timeframe with
  | none => (none, none)
  | some df =>
      let df1 := analyze_data df
      let df2 := detect df1
      (some df2, some (rank df2))

/-- The signal-row filter of `main` (src/pre_pump_detector.py:78):
`df[df['pre_pump_signal']]`. -/
def signalRows (df : Frame) : Frame :=
  df.filter (fun r => r.pre_pump_signal)

/-- Embeds the collection loop of `main` (src/pre_pump_detector.py:70-95):
for each symbol the pipeline runs; when both the analyzed frame and the
ranking are present AND the frame contains at least one `pre_pump_signal`
row (so that `latest_signals = df[df['pre_pump_signal']].tail(5)` is
non-empty), the ranking — with the symbol name attached — is appended to
`all_rankings`.  Otherwise the symbol contributes nothing. -/
def collectRankings (pipeline : String → Option Frame × Option Ranking)
    (symbols : List String) : List (String × Ranking) :=
  symbols.filterMap (fun sym =>
    match pipeline sym with
    | (some df, some ranking) =>
        if (signalRows df).isEmpty then none else some (sym, ranking)
    | _ => none)

/-- Stable insertion into an ascending-by-`total_score` list: the new element
is placed before the first element whose score is ≥ its own, so elements with
equal scores keep their relative input order. -/
def insertAsc (x : String × Ranking) :
    List (String × Ranking) → List (String × Ranking)
  | [] => [x]
  | y :: ys =>
      if y.2.total_score < x.2.total_score then y :: insertAsc x ys
      else x :: y :: ys

/-- Stable ascending sort by `total_score` (insertion sort). -/
def stableSortAsc : List (String × Ranking) → List (String × Ranking)
  | [] => []
  | x :: xs => insertAsc x (stableSortAsc xs)

/-- Embeds `rankings_df.sort_values(by='total_score', ascending=False)`
(src/pre_pump_detector.py:108).  pandas computes a stable ascending argsort of
the single key column and reverses the index order for `ascending=False`
(numpy's introsort is insertion sort — stable — below its 16-element
partition threshold, which covers every concrete instance evaluated here);
no secondary key on the symbol name is ever consulted. -/
def sortRankingsDesc (l : List (String × Ranking)) : List (String × Ranking) :=
  (stableSortAsc l).reverse

/-- The full batch ranking output of `main`: collect one ranking per
qualifying symbol, then sort by `total_score` descending. -/
def batchRankings (pipeline : String → Option Frame × Option Ranking)
    (symbols : List String) : List (String × Ranking) :=
  sortRankingsDesc (collectRankings pipeline symbols)

/-! ## Signal Detector (modelled from the spec)

`libs/signal_analyzer.py` is not in the repository snapshot; only its callers
are.  The detector is modelled from §4.4 of the spec. -/

/-- Modelled from the spec: the per-bar view the Signal Detector works on.
`conds` holds the evaluated boolean sub-conditions of §4.4 (trend,
RSI band, MACD cross, squeeze, pattern) for this bar; the four candle-pattern
flags and the bar's price/volume are what the caller
(`analyze_coin`, src/analyzer_test.py:84-97) reads from a qualifying row. -/
structure Bar where
  conds : List Bool
  hammer : Bool
  morning_star : Bool
  engulfing : Bool
  doji : Bool
  close : ℚ
  volume : ℚ
deriving DecidableEq

instance : Inhabited Bar := ⟨⟨[], false, false, false, false, 0, 0⟩⟩

/-- Number of satisfied sub-conditions at a bar. -/
def satisfiedCount (b : Bar) : Nat :=
  b.conds.count true

/-- Modelled from the spec: `signal_strength = (count of satisfied
sub-conditions) / (total sub-conditions considered)` (§4.4, unweighted). -/
def signal_strength (b : Bar) : ℚ :=
  (satisfiedCount b : ℚ) / (b.conds.length : ℚ)

/-- The contributing-pattern list read off a qualifying row
(src/analyzer_test.py:93-96). -/
def contributingPatterns (b : Bar) : List String :=
  (if b.hammer then ["hammer"] else []) ++
  (if b.morning_star then ["morning_star"] else []) ++
  (if b.engulfing then ["engulfing"] else []) ++
  (if b.doji then ["doji"] else [])

/-- A Signal Event: `{bar_index, signal_strength, contributing_patterns,
price, volume}` as assembled by src/analyzer_test.py:88-97. -/
structure SignalEvent where
  barIndex : Nat
  strength : ℚ
  patterns : List String
  price : ℚ
  volume : ℚ
deriving DecidableEq

/-- The event built for a qualifying bar. -/
def mkEvent (i : Nat) (b : Bar) : SignalEvent :=
  ⟨i, signal_strength b, contributingPatterns b, b.close, b.volume⟩

/-- Modelled from the spec: the detector walks the bars, emitting an event
exactly for bars whose satisfied sub-condition count reaches the configured
minimum (`minCount`); other bars contribute nothing (sparse output, §4.4). -/
def detectSignalsAux (minCount : Nat) : List Bar → Nat → List SignalEvent
  | [], _ => []
  | b :: bs, i =>
      if minCount ≤ satisfiedCount b then
        mkEvent i b :: detectSignalsAux minCount bs (i + 1)
      else detectSignalsAux minCount bs (i + 1)

/-- Modelled from the spec: `detect_signals` over a whole Candle Series,
composed with the sparse signal-row extraction the callers perform
(src/analyzer_test.py:86, src/pre_pump_detector.py:78). -/
def detect_signals (minCount : Nat) (bars : List Bar) : List SignalEvent :=
  detectSignalsAux minCount bars 0

/-! ## RSI (modelled from the spec)

`libs/technical_analyzer.py` is not in the repository snapshot.  RSI is
modelled from §4.1: a standard 0-100 oscillator over a fixed lookback with
the division-by-zero guard `average loss = 0 → RSI = 100`. -/

/-- Close-to-close price change at bar `j` (zero at `j = 0`). -/
def priceChange (closes : List ℚ) (j : Nat) : ℚ :=
  if j = 0 then 0 else closes.getD j 0 - closes.getD (j - 1) 0

/-- Average gain over the `period` changes ending at bar `i`. -/
def avgGain (closes : List ℚ) (period i : Nat) : ℚ :=
  (∑ k ∈ Finset.Icc (i - period + 1) i, max (priceChange closes k) 0) / (period : ℚ)

/-- Average loss over the `period` changes ending at bar `i`. -/
def avgLoss (closes : List ℚ) (period i : Nat) : ℚ :=
  (∑ k ∈ Finset.Icc (i - period + 1) i, max (-priceChange closes k) 0) / (period : ℚ)

/-- Modelled from the spec: RSI at bar `i` with lookback `period`.
Bars inside the warm-up window (`i < period`) and bars beyond the series are
undefined (`none`, never silently zero); when the average loss is zero the
guarded value is 100, otherwise the standard `100 - 100 / (1 + RS)`. -/
def rsi (closes : List ℚ) (period i : Nat) : Option ℚ :=
  if i < period ∨ closes.length ≤ i then none
  else some (if avgLoss closes period i = 0 then 100
             else 100 - 100 / (1 + avgGain closes period i / avgLoss closes period i))

/-! ## Fibonacci levels (modelled from the spec)

`TechnicalAnalyzer.get_fibonacci_levels` is not in the repository snapshot.
Modelled from §4.1: most recent swing high/low as local extrema over a
window of configurable half-width `k`, retracement/extension levels at the
standard fractions, and the unclamped position. -/

/-- The high column of a series. -/
def highsOf (s : List Candle) : List ℚ := s.map (fun c => c.high)

/-- The low column of a series. -/
def lowsOf (s : List Candle) : List ℚ := s.map (fun c => c.low)

/-- The latest close of a series (0 for an empty series). -/
def lastClose (s : List Candle) : ℚ := ((s.getLast?).map (fun c => c.close)).getD 0

/-- Bar `i` is a swing high for half-width `k`: it has `k` confirmation bars
on each side and its high is maximal over the window `[i-k, i+k]`. -/
def isSwingHigh (hs : List ℚ) (k i : Nat) : Bool :=
  decide (k ≤ i) && decide (i + k < hs.length) &&
  (List.range (2 * k + 1)).all (fun d => decide (hs.getD (i - k + d) 0 ≤ hs.getD i 0))

/-- Bar `i` is a swing low for half-width `k` (dual of `isSwingHigh`). -/
def isSwingLow (ls : List ℚ) (k i : Nat) : Bool :=
  decide (k ≤ i) && decide (i + k < ls.length) &&
  (List.range (2 * k + 1)).all (fun d => decide (ls.getD i 0 ≤ ls.getD (i - k + d) 0))

/-- Index of the most recent bar (largest index) satisfying `p`, if any. -/
def lastIdxWhere (p : Nat → Bool) (n : Nat) : Option Nat :=
  (List.range n).reverse.find? p

/-- Fibonacci Levels: retracement and extension price maps, the anchoring
swing prices, and the unclamped position of the latest close. -/
structure FibLevels where
  retracement : List (ℚ × ℚ)
  extension : List (ℚ × ℚ)
  swingHigh : ℚ
  swingLow : ℚ
  position : ℚ
deriving DecidableEq

/-- Modelled from the spec: `get_fibonacci_levels` (§4.1).  Finds the most
recent swing high and swing low (window half-width `k`); with both present
and a non-degenerate price span it reports retracement levels at the
standard fractions, extensions beyond 1.0, and
`position = (current close − swing low) / (swing high − swing low)`,
left unclamped.  Missing swings or a degenerate span yield the explicit
no-swing result `none`. -/
def get_fibonacci_levels (s : List Candle) (k : Nat) : Option FibLevels :=
  match lastIdxWhere (isSwingHigh (highsOf s) k) s.length,
        lastIdxWhere (isSwingLow (lowsOf s) k) s.length with
  | some ih, some il =>
      let hi := (highsOf s).getD ih 0
      let lo := (lowsOf s).getD il 0
      if hi ≤ lo then none
      else
        some ⟨([0, 236/1000, 382/1000, 1/2, 618/1000, 786/1000, 1].map
                 (fun f => (f, hi - f * (hi - lo)))),
              ([1272/1000, 1618/1000, 2].map
                 (fun f => (f, hi + (f - 1) * (hi - lo)))),
              hi, lo, (lastClose s - lo) / (hi - lo)⟩
  | _, _ => none

/-! ## Volume Profile (modelled from the spec)

`libs/volume_profile_analyzer.py` is not in the repository snapshot.
Modelled from §4.2: `N` equal-width bins over `[min(low), max(high)]`,
per-candle volume split proportionally to bin overlap, point of control =
midpoint of the maximum bin, value area grown outward from the
point-of-control bin until the target fraction of total volume is reached
(ties between the two frontier bins broken toward the current close). -/

/-- Minimum low of the series (0 for an empty series). -/
def minLow : List Candle → ℚ
  | [] => 0
  | c :: cs => cs.foldl (fun a d => min a d.low) c.low

/-- Maximum high of the series (0 for an empty series). -/
def maxHigh : List Candle → ℚ
  | [] => 0
  | c :: cs => cs.foldl (fun a d => max a d.high) c.high

/-- Total traded volume of the series. -/
def totalVolume (s : List Candle) : ℚ := (s.map (fun c => c.volume)).sum

/-- Width of each of the `N` equal price bins. -/
def binWidth (s : List Candle) (N : Nat) : ℚ := (maxHigh s - minLow s) / (N : ℚ)

/-- Length of the overlap of the interval `[a, b]` with `[lo, hi]`. -/
def overlap (a b lo hi : ℚ) : ℚ := max 0 (min b hi - max a lo)

/-- Bin index containing the price `p` (clamped to the last bin; bin 0 for a
degenerate zero-width range). -/
def binIndexOf (L w : ℚ) (N : Nat) (p : ℚ) : Nat :=
  if w ≤ 0 then 0 else min (N - 1) (Int.toNat ⌊(p - L) / w⌋)

/-- Volume the candle `c` contributes to bin `i`: its volume weighted by the
proportional overlap of `[low, high]` with the bin; a zero-range candle puts
its whole volume into the bin containing its price. -/
def candleBinVol (L w : ℚ) (N : Nat) (c : Candle) (i : Nat) : ℚ :=
  if c.low < c.high then
    c.volume * overlap c.low c.high (L + (i : ℚ) * w) (L + ((i : ℚ) + 1) * w)
      / (c.high - c.low)
  else if i = binIndexOf L w N c.low then c.volume else 0

/-- Aggregated volume of bin `i` over the whole series. -/
def binVolume (s : List Candle) (N i : Nat) : ℚ :=
  (s.map (fun c => candleBinVol (minLow s) (binWidth s N) N c i)).sum

/-- The histogram: volumes of bins `0 .. N-1`. -/
def binVols (s : List Candle) (N : Nat) : List ℚ :=
  (List.range N).map (fun i => binVolume s N i)

/-- Index of the first maximal element (the point-of-control bin). -/
def argmaxAux : List ℚ → Nat → Nat → ℚ → Nat
  | [], _, best, _ => best
  | v :: vs, i, best, bv =>
      if bv < v then argmaxAux vs (i + 1) i v else argmaxAux vs (i + 1) best bv

/-- The point-of-control bin: index of the bin with maximal volume. -/
def pocIdx : List ℚ → Nat
  | [] => 0
  | v :: vs => argmaxAux vs 1 0 v

/-- Sum of the bin volumes with indices in `[lo, hi]`. -/
def ivSum (vols : List ℚ) (lo hi : Nat) : ℚ :=
  ∑ i ∈ Finset.Icc lo hi, vols.getD i 0

/-- Midpoint price of bin `i`. -/
def binMid (L w : ℚ) (i : Nat) : ℚ := L + (i : ℚ) * w + w / 2

/-- Modelled from the spec: outward value-area expansion (§4.2).  Starting
from the point-of-control bin `[lo, hi]`, while the accumulated volume is
below the target and a neighbouring bin exists, the larger-volume frontier
bin is absorbed (on equal volumes, the bin whose midpoint is closer to the
current close); `fuel` bounds the number of steps. -/
def expandVA (vols : List ℚ) (L w close target : ℚ) :
    Nat → Nat → Nat → Nat × Nat
  | 0, lo, hi => (lo, hi)
  | fuel + 1, lo, hi =>
      if target ≤ ivSum vols lo hi then (lo, hi)
      else if 0 < lo ∧ hi + 1 < vols.length then
        let vl := vols.getD (lo - 1) 0
        let vr := vols.getD (hi + 1) 0
        if vr < vl then expandVA vols L w close target fuel (lo - 1) hi
        else if vl < vr then expandVA vols L w close target fuel lo (hi + 1)
        else if |binMid L w (lo - 1) - close| ≤ |binMid L w (hi + 1) - close| then
          expandVA vols L w close target fuel (lo - 1) hi
        else expandVA vols L w close target fuel lo (hi + 1)
      else if 0 < lo then expandVA vols L w close target fuel (lo - 1) hi
      else if hi + 1 < vols.length then expandVA vols L w close target fuel lo (hi + 1)
      else (lo, hi)

/-- The value-area bin range `[lo, hi]` for target fraction `frac`. -/
def vaBounds (s : List Candle) (N : Nat) (frac : ℚ) : Nat × Nat :=
  let vols := binVols s N
  let p := pocIdx vols
  expandVA vols (minLow s) (binWidth s N) (lastClose s) (frac * totalVolume s) N p p

/-- The Volume Profile record `{vpoc, vah, val}` as read by `analyze_coin`
(src/analyzer_test.py:65-70). -/
structure VolumeProfile where
  vpoc : ℚ
  vah : ℚ
  value_area_low : ℚ
deriving DecidableEq

/-- Modelled from the spec: `VolumeProfileAnalyzer.analyze` (§4.2): point of
control = midpoint of the maximal bin; value-area bounds = outer price edges
of the expanded bin range. -/
def volumeProfile (s : List Candle) (N : Nat) (frac : ℚ) : VolumeProfile :=
  let L := minLow s
  let w := binWidth s N
  let p := pocIdx (binVols s N)
  let lohi := vaBounds s N frac
  ⟨binMid L w p, L + ((lohi.2 : ℚ) + 1) * w, L + (lohi.1 : ℚ) * w⟩

/-! ## Concrete fixtures used by counterexamples and witnesses -/

/-- A row carrying a pre-pump signal. -/
def sigRow : Row := ⟨true, 1, 1⟩

/-- A row without a pre-pump signal. -/
def noSigRow : Row := ⟨false, 1, 1⟩

/-- A pipeline in which every symbol completes with one signal row and a
ranking of total score 5 (so any two symbols tie). -/
def tiePipeline : String → Option Frame × Option Ranking :=
  fun _ => (some [sigRow], some ⟨5⟩)

/-- A pipeline in which every symbol completes (data and ranking present)
but the analyzed frame contains no pre-pump signal row. -/
def completeNoSignalPipeline : String → Option Frame × Option Ranking :=
  fun _ => (some [noSigRow], some ⟨5⟩)

/-- A bar satisfying one of two sub-conditions, with a hammer flag. -/
def barOn : Bar := ⟨[true, false], true, false, false, false, 2, 3⟩

/-- A bar satisfying none of its two sub-conditions. -/
def barOff : Bar := ⟨[false, false], false, false, false, false, 1, 1⟩

/-- A candle trading entirely inside the price band `[lo, hi]`. -/
def bandCandle (lo hi v : ℚ) : Candle := ⟨0, lo, hi, lo, hi, v⟩

/-- Four candles giving the bin histogram `[40, 100, 1, 90]` over 4 bins:
the point-of-control bin is bin 1, and for a 70% value-area target the
outward expansion absorbs bin 0 first (40 > 1), then must continue through
bins 2 and 3, ending with all four bins — although bins 1-3 alone already
exceed the target. -/
def vaExample : List Candle :=
  [bandCandle (1/2) (3/2) 40, bandCandle (5/2) (7/2) 100,
   bandCandle (9/2) (11/2) 1, bandCandle (13/2) (15/2) 90]

/-- A four-candle series whose most recent swing high (window 1) is bar 1 at
price 5 and most recent swing low is bar 2 at price 1, while the final close
9 has broken far above the swing high, so the Fibonacci position exceeds 1. -/
def fibExample : List Candle :=
  [⟨0, 1, 1, 1, 1, 1⟩, ⟨1, 4, 5, 4, 4, 1⟩,
   ⟨2, 1, 2, 1, 1, 1⟩, ⟨3, 2, 10, 2, 9, 1⟩]

/-! ## Helper lemmas: the ranking sort -/

/-- Inserting preserves the multiset of records. -/
theorem insertAsc_perm (x : String × Ranking) (l : List (String × Ranking)) :
    (insertAsc x l).Perm (x :: l) := by
  induction l with
  | nil => simp [insertAsc]
  | cons y ys ih =>
    rw [insertAsc]
    by_cases h : y.2.total_score < x.2.total_score
    · rw [if_pos h]
      exact (ih.cons y).trans (List.Perm.swap x y ys)
    · rw [if_neg h]

/-- The stable sort preserves the multiset of records. -/
theorem stableSortAsc_perm (l : List (String × Ranking)) :
    (stableSortAsc l).Perm l := by
  induction l with
  | nil => simp [stableSortAsc]
  | cons x xs ih => exact (insertAsc_perm x (stableSortAsc xs)).trans (ih.cons x)

/-- Inserting preserves ascending order of total scores. -/
theorem insertAsc_sorted (x : String × Ranking) (l : List (String × Ranking))
    (h : l.Sorted (fun a b => a.2.total_score ≤ b.2.total_score)) :
    (insertAsc x l).Sorted (fun a b => a.2.total_score ≤ b.2.total_score) := by
  induction l with
  | nil => simp [insertAsc]
  | cons y ys ih =>
    rw [List.sorted_cons] at h
    obtain ⟨hy, hys⟩ := h
    rw [insertAsc]
    by_cases hc : y.2.total_score < x.2.total_score
    · rw [if_pos hc, List.sorted_cons]
      refine ⟨?_, ih hys⟩
      intro b hb
      rcases List.mem_cons.mp ((insertAsc_perm x ys).mem_iff.mp hb) with rfl | hbys
      · exact hc.le
      · exact hy b hbys
    · rw [if_neg hc, List.sorted_cons]
      refine ⟨?_, List.sorted_cons.mpr ⟨hy, hys⟩⟩
      intro b hb
      rcases List.mem_cons.mp hb with rfl | hbys
      · exact le_of_not_lt hc
      · exact le_trans (le_of_not_lt hc) (hy b hbys)

/-- The stable sort produces ascending total scores. -/
theorem stableSortAsc_sorted (l : List (String × Ranking)) :
    (stableSortAsc l).Sorted (fun a b => a.2.total_score ≤ b.2.total_score) := by
  induction l with
  | nil => simp [stableSortAsc]
  | cons x xs ih => exact insertAsc_sorted x (stableSortAsc xs) ih

/-- C1, counterexample.  A batch of two symbols whose rankings tie at total
score 5, fed to `main`'s collection loop and pandas sort: the output order is
`["BUSDT", "AUSDT"]` even though `"AUSDT" < "BUSDT"` alphabetically, so equal
`total_score` records are NOT ordered by symbol name ascending. -/
theorem batch_tie_not_alphabetical :
    (tiePipeline "AUSDT").2 = some ⟨5⟩ ∧ (tiePipeline "BUSDT").2 = some ⟨5⟩ ∧
    ("AUSDT" : String) < "BUSDT" ∧
    (batchRankings tiePipeline ["AUSDT", "BUSDT"]).map Prod.fst =
      ["BUSDT", "AUSDT"] := by
  refine ⟨rfl, rfl, ?_, by decide⟩
  rw [String.lt_iff_toList_lt]
  decide

/-- C1 (amended): the batch ranking output is a permutation of the collected
Ranking Records sorted by `total_score` descending, and — being a pure
function of the inputs — it is deterministic; however ties are left in the
order induced by the input sequence (pandas' single-key sort), not
re-ordered alphabetically by symbol name. -/
theorem batch_rankings_sorted_desc (p : String → Option Frame × Option Ranking)
    (syms : List String) :
    (batchRankings p syms).Perm (collectRankings p syms) ∧
    (batchRankings p syms).Sorted
      (fun a b => b.2.total_score ≤ a.2.total_score) := by
  constructor
  · exact (List.reverse_perm _).trans (stableSortAsc_perm _)
  · exact List.pairwise_reverse.mpr (stableSortAsc_sorted _)

/-- C10: `analyze_symbol` returns `(None, None)` whenever the data fetch
yields `None` — regardless of the analyzer stages, which are never consulted
— and its two components are `None` together or not at all. -/
theorem analyze_symbol_none_pairing (fetchData : String → String → Option Frame)
    (analyze_data detect : Frame → Frame) (rank : Frame → Ranking)
    (symbol timeframe : String) :
    (fetchData symbol timeframe = none →
      analyze_symbol fetchData analyze_data detect rank symbol timeframe =
        (none, none)) ∧
    ((analyze_symbol fetchData analyze_data detect rank symbol timeframe).1 = none ↔
      (analyze_symbol fetchData analyze_data detect rank symbol timeframe).2 = none) := by
  cases h : fetchData symbol timeframe <;> simp [analyze_symbol, h]

/-- C10, witness: a concrete run with a failing fetch. -/
theorem analyze_symbol_none_pairing_witness :
    ((fun (_ _ : String) => (none : Option Frame)) "BTCUSDT" "1h" = none →
      analyze_symbol (fun _ _ => none) id id (fun _ => ⟨0⟩) "BTCUSDT" "1h" =
        (none, none)) ∧
    ((analyze_symbol (fun _ _ => (none : Option Frame)) id id (fun _ => ⟨0⟩)
        "BTCUSDT" "1h").1 = none ↔
      (analyze_symbol (fun _ _ => (none : Option Frame)) id id (fun _ => ⟨0⟩)
        "BTCUSDT" "1h").2 = none) :=
  analyze_symbol_none_pairing (fun _ _ => none) id id (fun _ => ⟨0⟩) "BTCUSDT" "1h"

/-! ## Helper lemmas: the collection loop -/

/-- One step of the collection loop: the head symbol contributes its ranking
exactly when its pipeline completed and produced a signal row. -/
theorem collectRankings_cons (p : String → Option Frame × Option Ranking)
    (a : String) (as : List String) :
    collectRankings p (a :: as) =
      (match p a with
       | (some df, some ranking) =>
           if (signalRows df).isEmpty then [] else [(a, ranking)]
       | _ => []) ++ collectRankings p as := by
  rw [collectRankings, collectRankings, List.filterMap_cons]
  rcases p a with ⟨_ | df, _ | rk⟩
  · simp
  · simp
  · simp
  · by_cases hc : (signalRows df).isEmpty <;> simp [hc]

/-- A symbol outside the batch has no entry in the collected rankings. -/
theorem collectRankings_filter_eq_nil (p : String → Option Frame × Option Ranking)
    (syms : List String) (sym : String) (h : sym ∉ syms) :
    (collectRankings p syms).filter (fun e => decide (e.1 = sym)) = [] := by
  induction syms with
  | nil => rfl
  | cons a as ih =>
    have hane : a ≠ sym := fun hco => h (hco ▸ List.mem_cons_self a as)
    have has : sym ∉ as := fun hco => h (List.mem_cons_of_mem a hco)
    rw [collectRankings_cons, List.filter_append, ih has, List.append_nil]
    rcases p a with ⟨_ | df, _ | rk⟩
    · rfl
    · rfl
    · rfl
    · by_cases hc : (signalRows df).isEmpty <;> simp [hc, hane]

/-- C2, counterexample.  A symbol whose pipeline completes — the analyzed
frame and the ranking are both present — but whose frame holds no pre-pump
signal row contributes NO Ranking Record: `main` appends the ranking only
inside `if not latest_signals.empty`. -/
theorem completed_symbol_without_signals_dropped :
    (completeNoSignalPipeline "BTCUSDT").1.isSome = true ∧
    (completeNoSignalPipeline "BTCUSDT").2.isSome = true ∧
    collectRankings completeNoSignalPipeline ["BTCUSDT"] = [] := by
  decide

/-- C2 (amended): in a duplicate-free batch, a symbol contributes exactly one
Ranking Record when its pipeline completes AND its analyzed frame contains at
least one pre-pump signal row; a symbol that fails upstream (no data or no
ranking) — or that completes with no signal rows — contributes none (no
sentinel score). -/
theorem collect_one_record_per_qualifying_symbol
    (p : String → Option Frame × Option Ranking) (syms : List String)
    (hnd : syms.Nodup) (sym : String) (hmem : sym ∈ syms) :
    ((collectRankings p syms).filter (fun e => decide (e.1 = sym))).length =
      (match p sym with
       | (some df, some _) => if (signalRows df).isEmpty then 0 else 1
       | _ => 0) := by
  induction syms with
  | nil => cases hmem
  | cons a as ih =>
    obtain ⟨hna, hnas⟩ := List.nodup_cons.mp hnd
    rw [collectRankings_cons, List.filter_append, List.length_append]
    rcases List.mem_cons.mp hmem with rfl | hmas
    · rw [collectRankings_filter_eq_nil p as sym hna]
      rcases hpa : p sym with ⟨_ | df, _ | rk⟩
      · simp
      · simp
      · simp
      · by_cases hc : (signalRows df).isEmpty <;> simp [hc]
    · have hane : a ≠ sym := fun hco => hna (hco ▸ hmas)
      rw [ih hnas hmas]
      rcases hpa : p a with ⟨_ | df, _ | rk⟩
      · simp
      · simp
      · simp
      · by_cases hc : (signalRows df).isEmpty <;> simp [hc, hane]

/-- C2, witness: one qualifying symbol yields exactly one record. -/
theorem collect_one_record_per_qualifying_symbol_witness :
    (["BTCUSDT"] : List String).Nodup ∧ ("BTCUSDT" : String) ∈ ["BTCUSDT"] ∧
    ((collectRankings tiePipeline ["BTCUSDT"]).filter
        (fun e => decide (e.1 = "BTCUSDT"))).length =
      (match tiePipeline "BTCUSDT" with
       | (some df, some _) => if (signalRows df).isEmpty then 0 else 1
       | _ => 0) :=
  ⟨by decide, by decide,
   collect_one_record_per_qualifying_symbol tiePipeline ["BTCUSDT"] (by decide)
     "BTCUSDT" (by decide)⟩

/-- C5: noninterference between symbols.  Removing any other symbol `T` from
the batch, or replacing the whole pipeline by one that may behave arbitrarily
differently on `T` (e.g. `T`'s pipeline failing), leaves the collected
Ranking Records of a symbol `S ≠ T` unchanged: each record is a function of
that symbol's own pipeline result alone. -/
theorem ranking_noninterference
    (p q : String → Option Frame × Option Ranking) (syms : List String)
    (S T : String) (hST : S ≠ T) (hq : ∀ x, x ≠ T → q x = p x) :
    (collectRankings p (syms.filter (fun x => decide (x ≠ T)))).filter
        (fun e => decide (e.1 = S)) =
      (collectRankings p syms).filter (fun e => decide (e.1 = S)) ∧
    (collectRankings q syms).filter (fun e => decide (e.1 = S)) =
      (collectRankings p syms).filter (fun e => decide (e.1 = S)) := by
  induction syms with
  | nil => exact ⟨rfl, rfl⟩
  | cons a as ih =>
    obtain ⟨ih1, ih2⟩ := ih
    have headS : ∀ (r : String → Option Frame × Option Ranking), a = T →
        ((match r a with
          | (some df, some ranking) =>
              if (signalRows df).isEmpty then [] else [(a, ranking)]
          | _ => []) : List (String × Ranking)).filter
            (fun e => decide (e.1 = S)) = [] := by
      intro r ha
      have hTS : ¬(T = S) := fun hco => hST hco.symm
      rcases r a with ⟨_ | df, _ | rk⟩
      · rfl
      · rfl
      · rfl
      · by_cases hc : (signalRows df).isEmpty <;> simp [hc, ha, hTS]
    constructor
    · by_cases ha : a = T
      · rw [List.filter_cons_of_neg (by simp [ha]), collectRankings_cons,
          List.filter_append, headS p ha, List.nil_append]
        exact ih1
      · rw [List.filter_cons_of_pos (by simp [ha]), collectRankings_cons,
          collectRankings_cons, List.filter_append, List.filter_append, ih1]
    · by_cases ha : a = T
      · rw [collectRankings_cons, collectRankings_cons, List.filter_append,
          List.filter_append, headS p ha, headS q ha, ih2]
      · rw [collectRankings_cons, collectRankings_cons, List.filter_append,
          List.filter_append, hq a ha, ih2]

/-- C5, witness: dropping `"BUSDT"` (or failing it) leaves `"AUSDT"`'s
record unchanged in a concrete two-symbol batch. -/
theorem ranking_noninterference_witness :
    (("AUSDT" : String) ≠ "BUSDT") ∧
    ((collectRankings tiePipeline
        ((["AUSDT", "BUSDT"] : List String).filter
          (fun x => decide (x ≠ "BUSDT")))).filter
        (fun e => decide (e.1 = "AUSDT")) =
      (collectRankings tiePipeline ["AUSDT", "BUSDT"]).filter
        (fun e => decide (e.1 = "AUSDT")) ∧
    (collectRankings tiePipeline ["AUSDT", "BUSDT"]).filter
        (fun e => decide (e.1 = "AUSDT")) =
      (collectRankings tiePipeline ["AUSDT", "BUSDT"]).filter
        (fun e => decide (e.1 = "AUSDT"))) :=
  ⟨by decide,
   ranking_noninterference tiePipeline tiePipeline ["AUSDT", "BUSDT"]
     "AUSDT" "BUSDT" (by decide) (fun _ _ => rfl)⟩

/-! ## Helper lemmas: the signal detector -/

/-- Membership in the detector output, with explicit bar indices. -/
theorem detectSignalsAux_mem (minCount : Nat) (bs : List Bar) (i0 : Nat)
    (e : SignalEvent) :
    e ∈ detectSignalsAux minCount bs i0 ↔
      ∃ j, j < bs.length ∧ e = mkEvent (i0 + j) (bs.getD j default) ∧
        minCount ≤ satisfiedCount (bs.getD j default) := by
  induction bs generalizing i0 with
  | nil => simp [detectSignalsAux]
  | cons b bs ih =>
    rw [detectSignalsAux]
    by_cases hb : minCount ≤ satisfiedCount b
    · rw [if_pos hb, List.mem_cons, ih (i0 + 1)]
      constructor
      · rintro (rfl | ⟨j, hj, hje, hjc⟩)
        · exact ⟨0, Nat.succ_pos _, by simp, by simpa using hb⟩
        · refine ⟨j + 1, Nat.succ_lt_succ hj, ?_, by simpa using hjc⟩
          rw [List.getD_cons_succ, show i0 + (j + 1) = i0 + 1 + j from by omega]
          exact hje
      · rintro ⟨j, hj, hje, hjc⟩
        cases j with
        | zero => exact Or.inl (by simpa using hje)
        | succ j =>
          refine Or.inr ⟨j, Nat.lt_of_succ_lt_succ hj, ?_, by simpa using hjc⟩
          rw [show i0 + 1 + j = i0 + (j + 1) from by omega]
          simpa using hje
    · rw [if_neg hb, ih (i0 + 1)]
      constructor
      · rintro ⟨j, hj, hje, hjc⟩
        refine ⟨j + 1, Nat.succ_lt_succ hj, ?_, by simpa using hjc⟩
        rw [List.getD_cons_succ, show i0 + (j + 1) = i0 + 1 + j from by omega]
        exact hje
      · rintro ⟨j, hj, hje, hjc⟩
        cases j with
        | zero => exact absurd (by simpa using hjc) hb
        | succ j =>
          refine ⟨j, Nat.lt_of_succ_lt_succ hj, ?_, by simpa using hjc⟩
          rw [show i0 + 1 + j = i0 + (j + 1) from by omega]
          simpa using hje

/-- The detector output has one entry per qualifying bar — nothing is padded. -/
theorem detectSignalsAux_length (minCount : Nat) (bs : List Bar) (i0 : Nat) :
    (detectSignalsAux minCount bs i0).length =
      (bs.filter (fun b => decide (minCount ≤ satisfiedCount b))).length := by
  induction bs generalizing i0 with
  | nil => rfl
  | cons b bs ih =>
    rw [detectSignalsAux]
    by_cases hb : minCount ≤ satisfiedCount b
    · rw [if_pos hb, List.filter_cons_of_pos (by simpa using hb)]
      simpa using ih (i0 + 1)
    · rw [if_neg hb, List.filter_cons_of_neg (by simpa using hb)]
      exact ih (i0 + 1)

/-- C3: the detector output is sparse.  An event for bar `i` exists exactly
when bar `i` exists and satisfies at least the configured minimum count of
sub-conditions; a bar with zero satisfied sub-conditions never produces an
event, and the output length equals the number of qualifying bars (no padded
"false" rows). -/
theorem detector_output_sparse (minCount : Nat) (bars : List Bar) (i : Nat)
    (h1 : 1 ≤ minCount) :
    ((∃ e ∈ detect_signals minCount bars, e.barIndex = i) ↔
      (i < bars.length ∧ minCount ≤ satisfiedCount (bars.getD i default))) ∧
    (satisfiedCount (bars.getD i default) = 0 →
      ¬∃ e ∈ detect_signals minCount bars, e.barIndex = i) ∧
    (detect_signals minCount bars).length =
      (bars.filter (fun b => decide (minCount ≤ satisfiedCount b))).length := by
  have hiff : (∃ e ∈ detect_signals minCount bars, e.barIndex = i) ↔
      (i < bars.length ∧ minCount ≤ satisfiedCount (bars.getD i default)) := by
    constructor
    · rintro ⟨e, he, hei⟩
      obtain ⟨j, hj, hje, hjc⟩ := (detectSignalsAux_mem minCount bars 0 e).mp he
      have hij : i = j := by rw [← hei, hje]; simp [mkEvent]
      exact hij ▸ ⟨hj, hjc⟩
    · rintro ⟨hi, hc⟩
      exact ⟨mkEvent i (bars.getD i default),
        (detectSignalsAux_mem minCount bars 0 _).mpr ⟨i, hi, by simp, hc⟩, rfl⟩
  refine ⟨hiff, ?_, detectSignalsAux_length minCount bars 0⟩
  intro h0 hev
  have := (hiff.mp hev).2
  omega

/-- C3, witness: with minimum count 1, the bar satisfying one sub-condition
produces the event at index 0 and the all-false bar produces none. -/
theorem detector_output_sparse_witness :
    1 ≤ 1 ∧
    (((∃ e ∈ detect_signals 1 [barOn, barOff], e.barIndex = 0) ↔
      (0 < ([barOn, barOff] : List Bar).length ∧
        1 ≤ satisfiedCount (([barOn, barOff] : List Bar).getD 0 default))) ∧
    (satisfiedCount (([barOn, barOff] : List Bar).getD 0 default) = 0 →
      ¬∃ e ∈ detect_signals 1 [barOn, barOff], e.barIndex = 0) ∧
    (detect_signals 1 [barOn, barOff]).length =
      (([barOn, barOff] : List Bar).filter
        (fun b => decide (1 ≤ satisfiedCount b))).length) :=
  ⟨by decide, detector_output_sparse 1 [barOn, barOff] 0 (by decide)⟩

/-- C4: `signal_strength` is the count of satisfied sub-conditions divided by
the number of sub-conditions considered; it lies in `[0, 1]`, and over bars
with the same number of sub-conditions it is monotonically non-decreasing in
the satisfied count. -/
theorem signal_strength_ratio_bounds (b : Bar) (h : 0 < b.conds.length) :
    signal_strength b = (satisfiedCount b : ℚ) / (b.conds.length : ℚ) ∧
    0 ≤ signal_strength b ∧ signal_strength b ≤ 1 ∧
    (∀ b' : Bar, b'.conds.length = b.conds.length →
      satisfiedCount b ≤ satisfiedCount b' →
        signal_strength b ≤ signal_strength b') := by
  have hlen : (0 : ℚ) < (b.conds.length : ℚ) := by exact_mod_cast h
  refine ⟨rfl, ?_, ?_, ?_⟩
  · exact div_nonneg (Nat.cast_nonneg _) hlen.le
  · rw [signal_strength, div_le_one hlen]
    exact_mod_cast List.count_le_length true b.conds
  · intro b' hlen' hcnt
    rw [signal_strength, signal_strength, hlen']
    exact (div_le_div_iff_of_pos_right hlen).mpr (by exact_mod_cast hcnt)

/-- C4, witness: the one-of-two bar has strength 1/2 ∈ [0,1]. -/
theorem signal_strength_ratio_bounds_witness :
    0 < barOn.conds.length ∧
    (signal_strength barOn = (satisfiedCount barOn : ℚ) / (barOn.conds.length : ℚ) ∧
    0 ≤ signal_strength barOn ∧ signal_strength barOn ≤ 1 ∧
    (∀ b' : Bar, b'.conds.length = barOn.conds.length →
      satisfiedCount barOn ≤ satisfiedCount b' →
        signal_strength barOn ≤ signal_strength b')) :=
  ⟨by decide, signal_strength_ratio_bounds barOn (by decide)⟩

/-! ## Helper lemmas: RSI -/

/-- The average gain is nonnegative. -/
theorem avgGain_nonneg (closes : List ℚ) (period i : Nat) :
    0 ≤ avgGain closes period i := by
  apply div_nonneg _ (Nat.cast_nonneg period)
  exact Finset.sum_nonneg fun k _ => le_max_right _ _

/-- The average loss is nonnegative. -/
theorem avgLoss_nonneg (closes : List ℚ) (period i : Nat) :
    0 ≤ avgLoss closes period i := by
  apply div_nonneg _ (Nat.cast_nonneg period)
  exact Finset.sum_nonneg fun k _ => le_max_right _ _

/-- C9: for a series shorter than the lookback, RSI is undefined at every
bar; for a series of sufficient length, RSI is defined at every bar past the
warm-up window, lies in `[0, 100]`, and equals 100 whenever the average loss
is zero (the guarded division never divides by zero). -/
theorem rsi_defined_bounded (closes : List ℚ) (period : Nat) (hp : 0 < period) :
    (closes.length < period → ∀ i, rsi closes period i = none) ∧
    (∀ i, period ≤ i → i < closes.length →
      ∃ x, rsi closes period i = some x ∧ 0 ≤ x ∧ x ≤ 100 ∧
        (avgLoss closes period i = 0 → x = 100)) := by
  constructor
  · intro hlen i
    rw [rsi]
    rcases lt_or_le i period with h | h
    · rw [if_pos (Or.inl h)]
    · rw [if_pos (Or.inr (le_trans hlen.le h))]
  · intro i hpi hil
    rw [rsi, if_neg (by omega)]
    by_cases hz : avgLoss closes period i = 0
    · rw [if_pos hz]
      exact ⟨100, rfl, by norm_num, le_refl _, fun _ => rfl⟩
    · rw [if_neg hz]
      have hl : 0 < avgLoss closes period i :=
        lt_of_le_of_ne (avgLoss_nonneg closes period i) (Ne.symm hz)
      have hrs : 0 ≤ avgGain closes period i / avgLoss closes period i :=
        div_nonneg (avgGain_nonneg closes period i) hl.le
      have hpos : (0 : ℚ) < 1 + avgGain closes period i / avgLoss closes period i := by
        linarith
      have hdivpos : (0 : ℚ) <
          100 / (1 + avgGain closes period i / avgLoss closes period i) := by
        positivity
      have hdivle : 100 / (1 + avgGain closes period i / avgLoss closes period i) ≤
          100 := by
        rw [div_le_iff₀ hpos]
        nlinarith
      exact ⟨_, rfl, by linarith, by linarith, fun hco => absurd hco hz⟩

/-- C9, witness: a three-close series with lookback 2. -/
theorem rsi_defined_bounded_witness :
    0 < 2 ∧
    ((([1, 2, 1] : List ℚ).length < 2 → ∀ i, rsi [1, 2, 1] 2 i = none) ∧
     (∀ i, 2 ≤ i → i < ([1, 2, 1] : List ℚ).length →
       ∃ x, rsi [1, 2, 1] 2 i = some x ∧ 0 ≤ x ∧ x ≤ 100 ∧
         (avgLoss [1, 2, 1] 2 i = 0 → x = 100))) :=
  ⟨by decide, rsi_defined_bounded [1, 2, 1] 2 (by decide)⟩

/-- C8: whenever Fibonacci levels are produced, the reported position equals
`(current close − swing low) / (swing high − swing low)` recomputed from the
reported swing bounds (round-trip), and the position is not clamped to
`[0, 1]`: on `fibExample` the reported position is greater than 1. -/
theorem fib_position_roundtrip_unclamped (s : List Candle) (k : Nat) :
    (∀ f ∈ get_fibonacci_levels s k,
       f.position = (lastClose s - f.swingLow) / (f.swingHigh - f.swingLow)) ∧
    ∃ f, get_fibonacci_levels fibExample 1 = some f ∧ 1 < f.position := by
  constructor
  · intro f hf
    rw [Option.mem_def] at hf
    unfold get_fibonacci_levels at hf
    split at hf
    · dsimp only at hf
      split_ifs at hf
      obtain rfl := Option.some.inj hf
      rfl
    · exact Option.noConfusion hf
  · have hH : lastIdxWhere (isSwingHigh (highsOf fibExample) 1) fibExample.length =
        some 1 := by decide
    have hL : lastIdxWhere (isSwingLow (lowsOf fibExample) 1) fibExample.length =
        some 2 := by decide
    unfold get_fibonacci_levels
    rw [hH, hL]
    dsimp only
    rw [if_neg (by norm_num [highsOf, lowsOf, fibExample])]
    refine ⟨_, rfl, ?_⟩
    norm_num [lastClose, highsOf, lowsOf, fibExample]

/-! ## Helper lemmas: the volume profile -/

/-- The overlap of `[a,b]` with `[r,r']` expressed as a difference of the
clamp function `x ↦ min b (max a x)`, so per-bin overlaps telescope. -/
theorem overlap_eq_clamp_sub (a b r r' : ℚ) (hab : a ≤ b) (hrr : r ≤ r') :
    overlap a b r r' = min b (max a r') - min b (max a r) := by
  unfold overlap
  simp only [min_def, max_def]
  split_ifs <;> linarith

/-- The overlaps of `[a,b]` with the `N` consecutive bins sum to `b - a`. -/
theorem sum_overlap_telescope (a b L w : ℚ) (N : Nat) (hab : a ≤ b) (hw : 0 ≤ w)
    (hL : L ≤ a) (hH : b ≤ L + (N : ℚ) * w) :
    ∑ i ∈ Finset.range N, overlap a b (L + (i : ℚ) * w) (L + ((i : ℚ) + 1) * w) =
      b - a := by
  have hstep : ∀ i ∈ Finset.range N,
      overlap a b (L + (i : ℚ) * w) (L + ((i : ℚ) + 1) * w) =
        (fun j : Nat => min b (max a (L + (j : ℚ) * w))) (i + 1) -
          (fun j : Nat => min b (max a (L + (j : ℚ) * w))) i := by
    intro i _
    have h1 : L + (i : ℚ) * w ≤ L + ((i : ℚ) + 1) * w := by nlinarith
    rw [overlap_eq_clamp_sub a b _ _ hab h1]
    push_cast
    ring_nf
  rw [Finset.sum_congr rfl hstep]
  refine (Finset.sum_range_sub (fun j : Nat => min b (max a (L + (j : ℚ) * w))) N).trans ?_
  dsimp only
  have e0 : L + ((0 : ℕ) : ℚ) * w = L := by push_cast; ring
  rw [e0, max_eq_left hL, min_eq_right hab,
    max_eq_right (hab.trans hH), min_eq_left hH]

/-- The fallback bin index is always a valid bin. -/
theorem binIndexOf_lt (L w : ℚ) (N : Nat) (p : ℚ) (hN : 0 < N) :
    binIndexOf L w N p < N := by
  rw [binIndexOf]
  split_ifs
  · exact hN
  · have := min_le_left (N - 1) (Int.toNat ⌊(p - L) / w⌋)
    omega

/-- Each candle's volume is fully distributed over the `N` bins. -/
theorem sum_candleBinVol (L w : ℚ) (N : Nat) (c : Candle) (hN : 0 < N) (hw : 0 ≤ w)
    (hlh : c.low ≤ c.high) (hL : L ≤ c.low) (hH : c.high ≤ L + (N : ℚ) * w) :
    ∑ i ∈ Finset.range N, candleBinVol L w N c i = c.volume := by
  by_cases hc : c.low < c.high
  · have hrw : ∀ i ∈ Finset.range N, candleBinVol L w N c i =
        c.volume / (c.high - c.low) *
          overlap c.low c.high (L + (i : ℚ) * w) (L + ((i : ℚ) + 1) * w) := by
      intro i _
      rw [candleBinVol, if_pos hc]
      ring
    rw [Finset.sum_congr rfl hrw, ← Finset.mul_sum,
      sum_overlap_telescope c.low c.high L w N hlh hw hL hH]
    exact div_mul_cancel₀ c.volume (sub_ne_zero.mpr hc.ne')
  · have hrw : ∀ i ∈ Finset.range N, candleBinVol L w N c i =
        if i = binIndexOf L w N c.low then c.volume else 0 := by
      intro i _
      rw [candleBinVol, if_neg hc]
    rw [Finset.sum_congr rfl hrw,
      Finset.sum_ite_eq' (Finset.range N) (binIndexOf L w N c.low) (fun _ => c.volume),
      if_pos (Finset.mem_range.mpr (binIndexOf_lt L w N c.low hN))]

/-- Folding `min` over lows never exceeds the accumulator. -/
theorem foldl_min_le_init (cs : List Candle) : ∀ a : ℚ,
    cs.foldl (fun x d => min x d.low) a ≤ a := by
  induction cs with
  | nil => intro a; simp
  | cons d ds ih =>
    intro a
    exact le_trans (ih (min a d.low)) (min_le_left _ _)

/-- Folding `min` over lows is below every member's low. -/
theorem foldl_min_le_low (cs : List Candle) (c : Candle) (hc : c ∈ cs) : ∀ a : ℚ,
    cs.foldl (fun x d => min x d.low) a ≤ c.low := by
  induction cs with
  | nil => cases hc
  | cons d ds ih =>
    intro a
    rcases List.mem_cons.mp hc with rfl | hcds
    · exact le_trans (foldl_min_le_init ds (min a c.low)) (min_le_right _ _)
    · exact ih hcds (min a d.low)

/-- `minLow` is a lower bound on every candle's low. -/
theorem minLow_le (s : List Candle) (c : Candle) (hc : c ∈ s) : minLow s ≤ c.low := by
  cases s with
  | nil => cases hc
  | cons d ds =>
    rw [minLow]
    rcases List.mem_cons.mp hc with rfl | hcds
    · exact foldl_min_le_init ds c.low
    · exact foldl_min_le_low ds c hcds d.low

/-- Folding `max` over highs never drops below the accumulator. -/
theorem init_le_foldl_max (cs : List Candle) : ∀ a : ℚ,
    a ≤ cs.foldl (fun x d => max x d.high) a := by
  induction cs with
  | nil => intro a; simp
  | cons d ds ih =>
    intro a
    exact le_trans (le_max_left _ _) (ih (max a d.high))

/-- Folding `max` over highs dominates every member's high. -/
theorem high_le_foldl_max (cs : List Candle) (c : Candle) (hc : c ∈ cs) : ∀ a : ℚ,
    c.high ≤ cs.foldl (fun x d => max x d.high) a := by
  induction cs with
  | nil => cases hc
  | cons d ds ih =>
    intro a
    rcases List.mem_cons.mp hc with rfl | hcds
    · exact le_trans (le_max_right _ _) (init_le_foldl_max ds (max a c.high))
    · exact ih hcds (max a d.high)

/-- `maxHigh` is an upper bound on every candle's high. -/
theorem le_maxHigh (s : List Candle) (c : Candle) (hc : c ∈ s) : c.high ≤ maxHigh s := by
  cases s with
  | nil => cases hc
  | cons d ds =>
    rw [maxHigh]
    rcases List.mem_cons.mp hc with rfl | hcds
    · exact init_le_foldl_max ds c.high
    · exact high_le_foldl_max ds c hcds d.high

/-- The price range of a valid series is well-ordered. -/
theorem minLow_le_maxHigh (s : List Candle) (hlh : ∀ c ∈ s, c.low ≤ c.high) :
    minLow s ≤ maxHigh s := by
  cases s with
  | nil => exact le_refl 0
  | cons d ds =>
    have hd : d ∈ d :: ds := List.mem_cons_self d ds
    exact le_trans (minLow_le _ d hd) (le_trans (hlh d hd) (le_maxHigh _ d hd))

/-- Bin-wise totals over a list of candles, summed over all bins. -/
theorem sum_sum_candleBinVol (L w : ℚ) (N : Nat) (l : List Candle) (hN : 0 < N)
    (hw : 0 ≤ w)
    (h : ∀ c ∈ l, c.low ≤ c.high ∧ L ≤ c.low ∧ c.high ≤ L + (N : ℚ) * w) :
    ∑ i ∈ Finset.range N, (l.map (fun c => candleBinVol L w N c i)).sum =
      (l.map (fun c => c.volume)).sum := by
  induction l with
  | nil => simp
  | cons c cs ih =>
    simp only [List.map_cons, List.sum_cons]
    rw [Finset.sum_add_distrib]
    obtain ⟨h1, h2, h3⟩ := h c (List.mem_cons_self c cs)
    rw [sum_candleBinVol L w N c hN hw h1 h2 h3,
      ih (fun d hd => h d (List.mem_cons_of_mem c hd))]

/-- Volume conservation: the bin histogram sums to the total series volume. -/
theorem binSum_eq_total (s : List Candle) (N : Nat) (hN : 0 < N)
    (hlh : ∀ c ∈ s, c.low ≤ c.high) :
    ∑ i ∈ Finset.range N, binVolume s N i = totalVolume s := by
  have hw : 0 ≤ binWidth s N :=
    div_nonneg (sub_nonneg.mpr (minLow_le_maxHigh s hlh)) (Nat.cast_nonneg N)
  have hNw : minLow s + (N : ℚ) * binWidth s N = maxHigh s := by
    rw [binWidth]
    field_simp
  simp only [binVolume]
  rw [sum_sum_candleBinVol (minLow s) (binWidth s N) N s hN hw
    (fun c hc => ⟨hlh c hc, minLow_le s c hc, hNw ▸ le_maxHigh s c hc⟩)]
  rfl

/-- The value-area expansion only grows the bin interval. -/
theorem expandVA_extends (vols : List ℚ) (L w close target : ℚ) :
    ∀ fuel lo hi,
      (expandVA vols L w close target fuel lo hi).1 ≤ lo ∧
      hi ≤ (expandVA vols L w close target fuel lo hi).2 := by
  intro fuel
  induction fuel with
  | zero => intro lo hi; exact ⟨le_refl _, le_refl _⟩
  | succ fuel ih =>
    intro lo hi
    rw [expandVA]
    dsimp only
    split_ifs with h1 h2 h3 h4 h5 h6 h7
    · exact ⟨le_refl _, le_refl _⟩
    · exact ⟨le_trans (ih (lo - 1) hi).1 (Nat.sub_le lo 1), (ih (lo - 1) hi).2⟩
    · exact ⟨(ih lo (hi + 1)).1, le_trans (Nat.le_succ hi) (ih lo (hi + 1)).2⟩
    · exact ⟨le_trans (ih (lo - 1) hi).1 (Nat.sub_le lo 1), (ih (lo - 1) hi).2⟩
    · exact ⟨(ih lo (hi + 1)).1, le_trans (Nat.le_succ hi) (ih lo (hi + 1)).2⟩
    · exact ⟨le_trans (ih (lo - 1) hi).1 (Nat.sub_le lo 1), (ih (lo - 1) hi).2⟩
    · exact ⟨(ih lo (hi + 1)).1, le_trans (Nat.le_succ hi) (ih lo (hi + 1)).2⟩
    · exact ⟨le_refl _, le_refl _⟩

/-- With enough fuel, the expansion ends having reached the target or having
absorbed every bin. -/
theorem expandVA_reaches (vols : List ℚ) (L w close target : ℚ) :
    ∀ fuel lo hi, hi < vols.length →
      lo + (vols.length - 1 - hi) ≤ fuel →
      target ≤ ivSum vols (expandVA vols L w close target fuel lo hi).1
          (expandVA vols L w close target fuel lo hi).2 ∨
        ((expandVA vols L w close target fuel lo hi).1 = 0 ∧
          (expandVA vols L w close target fuel lo hi).2 = vols.length - 1) := by
  intro fuel
  induction fuel with
  | zero =>
    intro lo hi hhi hm
    rw [expandVA]
    exact Or.inr ⟨by omega, by omega⟩
  | succ fuel ih =>
    intro lo hi hhi hm
    rw [expandVA]
    dsimp only
    split_ifs with h1 h2 h3 h4 h5 h6 h7
    · exact Or.inl h1
    · exact ih (lo - 1) hi hhi (by omega)
    · exact ih lo (hi + 1) h2.2 (by omega)
    · exact ih (lo - 1) hi hhi (by omega)
    · exact ih lo (hi + 1) h2.2 (by omega)
    · exact ih (lo - 1) hi hhi (by omega)
    · exact ih lo (hi + 1) h7 (by omega)
    · exact Or.inr ⟨by omega, by omega⟩

/-- The running best index of `argmaxAux` stays within bounds. -/
theorem argmaxAux_lt (vs : List ℚ) : ∀ i best bv, best < i →
    argmaxAux vs i best bv < i + vs.length := by
  induction vs with
  | nil =>
    intro i best bv h
    rw [argmaxAux]
    simpa using h
  | cons v vs ih =>
    intro i best bv h
    rw [argmaxAux]
    split_ifs
    · have := ih (i + 1) i v (Nat.lt_succ_self i)
      simp only [List.length_cons]
      omega
    · have := ih (i + 1) best bv (Nat.lt_succ_of_lt h)
      simp only [List.length_cons]
      omega

/-- The point-of-control index is a valid bin index. -/
theorem pocIdx_lt (vols : List ℚ) (h : 0 < vols.length) :
    pocIdx vols < vols.length := by
  cases vols with
  | nil => simp at h
  | cons v vs =>
    rw [pocIdx]
    have := argmaxAux_lt vs 1 0 v Nat.one_pos
    simp only [List.length_cons]
    omega

/-- Summing `getD` over all positions gives the list sum. -/
theorem sum_range_getD (l : List ℚ) :
    ∑ i ∈ Finset.range l.length, l.getD i 0 = l.sum := by
  induction l with
  | nil => simp
  | cons x xs ih =>
    rw [List.length_cons, Finset.sum_range_succ']
    simp only [List.getD_cons_succ, List.getD_cons_zero]
    rw [ih, List.sum_cons]
    ring

/-- The histogram has one entry per bin. -/
theorem binVols_length (s : List Candle) (N : Nat) : (binVols s N).length = N := by
  simp [binVols]

/-- A mapped range sums like the corresponding `Finset` sum. -/
theorem sum_map_range (f : Nat → ℚ) (N : Nat) :
    ((List.range N).map f).sum = ∑ i ∈ Finset.range N, f i := by
  induction N with
  | zero => simp
  | succ n ih =>
    rw [List.range_succ, List.map_append, List.sum_append, Finset.sum_range_succ, ih]
    simp

/-- The histogram list sums to the binwise `Finset` sum. -/
theorem binVols_sum (s : List Candle) (N : Nat) :
    (binVols s N).sum = ∑ i ∈ Finset.range N, binVolume s N i :=
  sum_map_range (fun i => binVolume s N i) N

/-- Summing the whole index interval gives the list sum. -/
theorem ivSum_full (vols : List ℚ) (h : 0 < vols.length) :
    ivSum vols 0 (vols.length - 1) = vols.sum := by
  rw [ivSum]
  have hIcc : Finset.Icc 0 (vols.length - 1) = Finset.range vols.length := by
    ext i
    simp only [Finset.mem_Icc, Finset.mem_range]
    omega
  rw [hIcc, sum_range_getD]

/-- C6: the per-bin volumes sum exactly (in `ℚ`) to the total series volume,
and the point-of-control price lies within
`[value_area_low, value_area_high]`. -/
theorem volume_conservation_poc_in_value_area (s : List Candle) (N : Nat)
    (frac : ℚ) (hN : 0 < N) (hlh : ∀ c ∈ s, c.low ≤ c.high) :
    (∑ i ∈ Finset.range N, binVolume s N i) = totalVolume s ∧
    (volumeProfile s N frac).value_area_low ≤ (volumeProfile s N frac).vpoc ∧
    (volumeProfile s N frac).vpoc ≤ (volumeProfile s N frac).vah := by
  have hw : 0 ≤ binWidth s N :=
    div_nonneg (sub_nonneg.mpr (minLow_le_maxHigh s hlh)) (Nat.cast_nonneg N)
  have hva : vaBounds s N frac =
      expandVA (binVols s N) (minLow s) (binWidth s N) (lastClose s)
        (frac * totalVolume s) N (pocIdx (binVols s N)) (pocIdx (binVols s N)) := rfl
  obtain ⟨hlo, hhi⟩ := expandVA_extends (binVols s N) (minLow s) (binWidth s N)
    (lastClose s) (frac * totalVolume s) N (pocIdx (binVols s N)) (pocIdx (binVols s N))
  rw [← hva] at hlo hhi
  have hvp : volumeProfile s N frac =
      ⟨binMid (minLow s) (binWidth s N) (pocIdx (binVols s N)),
       minLow s + (((vaBounds s N frac).2 : ℚ) + 1) * binWidth s N,
       minLow s + ((vaBounds s N frac).1 : ℚ) * binWidth s N⟩ := rfl
  refine ⟨binSum_eq_total s N hN hlh, ?_, ?_⟩
  · rw [hvp]
    dsimp only
    rw [binMid]
    have hcast : ((vaBounds s N frac).1 : ℚ) ≤ (pocIdx (binVols s N) : ℚ) := by
      exact_mod_cast hlo
    nlinarith [mul_nonneg (sub_nonneg.mpr hcast) hw]
  · rw [hvp]
    dsimp only
    rw [binMid]
    have hcast : (pocIdx (binVols s N) : ℚ) ≤ ((vaBounds s N frac).2 : ℚ) := by
      exact_mod_cast hhi
    nlinarith [mul_nonneg (sub_nonneg.mpr hcast) hw]

/-- C6, witness: the four-candle fixture with 4 bins and a 70% target. -/
theorem volume_conservation_poc_in_value_area_witness :
    0 < 4 ∧ (∀ c ∈ vaExample, c.low ≤ c.high) ∧
    ((∑ i ∈ Finset.range 4, binVolume vaExample 4 i) = totalVolume vaExample ∧
     (volumeProfile vaExample 4 (7/10)).value_area_low ≤
       (volumeProfile vaExample 4 (7/10)).vpoc ∧
     (volumeProfile vaExample 4 (7/10)).vpoc ≤
       (volumeProfile vaExample 4 (7/10)).vah) := by
  have hlh : ∀ c ∈ vaExample, c.low ≤ c.high := by
    simp only [vaExample, List.forall_mem_cons, List.forall_mem_nil]
    norm_num [bandCandle]
  exact ⟨by decide, hlh,
    volume_conservation_poc_in_value_area vaExample 4 (7/10) (by decide) hlh⟩

/-- C7, counterexample.  On `vaExample` (bin histogram `[40, 100, 1, 90]`,
point of control bin 1, 70% target = 161.7 of 231) the greedy outward
expansion absorbs bin 0 first (40 > 1) and ends at bins `[0, 3]` — all four
bins — although the strictly smaller contiguous set of bins `[1, 3]`, which
contains the point-of-control bin, already reaches the target (191 ≥ 161.7).
The reported value area is therefore NOT the minimal contiguous bin-set
containing the point-of-control bin that reaches the target. -/
theorem value_area_not_minimal_counterexample :
    pocIdx (binVols vaExample 4) = 1 ∧
    vaBounds vaExample 4 (7/10) = (0, 3) ∧
    7/10 * totalVolume vaExample ≤ ivSum (binVols vaExample 4) 1 3 := by
  have hL : minLow vaExample = 1/2 := by norm_num [minLow, vaExample, bandCandle]
  have hwv : binWidth vaExample 4 = 7/4 := by
    norm_num [binWidth, minLow, maxHigh, vaExample, bandCandle]
  have h1 : ∀ i, binVolume vaExample 4 i =
      (List.map (fun c => candleBinVol (1/2) (7/4) 4 c i) vaExample).sum := by
    intro i
    rw [binVolume, hL, hwv]
  have hr : List.range 4 = [0, 1, 2, 3] := by decide
  have hvols : binVols vaExample 4 = [40, 100, 1, 90] := by
    rw [binVols, hr]
    simp only [List.map_cons, List.map_nil, h1]
    norm_num [vaExample, bandCandle, candleBinVol, overlap, binIndexOf]
  have hclose : lastClose vaExample = 15/2 := rfl
  have htot : totalVolume vaExample = 231 := by
    norm_num [totalVolume, vaExample, bandCandle]
  have hpoc : pocIdx (binVols vaExample 4) = 1 := by
    rw [hvols]
    norm_num [pocIdx, argmaxAux]
  refine ⟨hpoc, ?_, ?_⟩
  · have hva : vaBounds vaExample 4 (7/10) =
        expandVA (binVols vaExample 4) (minLow vaExample) (binWidth vaExample 4)
          (lastClose vaExample) (7/10 * totalVolume vaExample) 4
          (pocIdx (binVols vaExample 4)) (pocIdx (binVols vaExample 4)) := rfl
    rw [hva, hpoc, hvols, hL, hwv, hclose, htot]
    rw [show (4 : Nat) = 3 + 1 from rfl, expandVA]
    rw [if_neg (by norm_num [ivSum, Finset.Icc_self, Finset.sum_singleton, List.getD]),
      if_pos (by norm_num), if_pos (by norm_num [List.getD])]
    rw [show (3 : Nat) = 2 + 1 from rfl, expandVA]
    rw [if_neg (by norm_num [ivSum, Finset.sum_Icc_succ_top, Finset.Icc_self,
          Finset.sum_singleton, List.getD]),
      if_neg (by norm_num), if_neg (by norm_num), if_pos (by norm_num)]
    rw [show (2 : Nat) = 1 + 1 from rfl, expandVA]
    rw [if_neg (by norm_num [ivSum, Finset.sum_Icc_succ_top, Finset.Icc_self,
          Finset.sum_singleton, List.getD]),
      if_neg (by norm_num), if_neg (by norm_num), if_pos (by norm_num)]
    rw [show (1 : Nat) = 0 + 1 from rfl, expandVA]
    rw [if_pos (by norm_num [ivSum, Finset.sum_Icc_succ_top, Finset.Icc_self,
          Finset.sum_singleton, List.getD])]
  · rw [hvols, htot]
    norm_num [ivSum, Finset.sum_Icc_succ_top, Finset.Icc_self,
      Finset.sum_singleton, List.getD]

/-- C7 (amended): for a series with positive total volume and a target
fraction ≤ 1, the value area is a contiguous bin interval containing the
point-of-control bin whose aggregated volume reaches the target, and the
expansion stops immediately once the target is reached (if the
point-of-control bin alone reaches the target, the value area is exactly
that single bin); but the result is the greedy outward expansion and is not
in general the globally minimal such contiguous bin-set. -/
theorem value_area_reaches_target (s : List Candle) (N : Nat) (frac : ℚ)
    (hN : 0 < N) (hlh : ∀ c ∈ s, c.low ≤ c.high) (hvol : 0 < totalVolume s)
    (hfrac : frac ≤ 1) :
    (vaBounds s N frac).1 ≤ pocIdx (binVols s N) ∧
    pocIdx (binVols s N) ≤ (vaBounds s N frac).2 ∧
    frac * totalVolume s ≤
      ivSum (binVols s N) (vaBounds s N frac).1 (vaBounds s N frac).2 ∧
    (frac * totalVolume s ≤
        ivSum (binVols s N) (pocIdx (binVols s N)) (pocIdx (binVols s N)) →
      vaBounds s N frac = (pocIdx (binVols s N), pocIdx (binVols s N))) := by
  have hlen : (binVols s N).length = N := binVols_length s N
  have hpoc : pocIdx (binVols s N) < N := by
    have := pocIdx_lt (binVols s N) (by rw [hlen]; exact hN)
    omega
  have hva : vaBounds s N frac =
      expandVA (binVols s N) (minLow s) (binWidth s N) (lastClose s)
        (frac * totalVolume s) N (pocIdx (binVols s N)) (pocIdx (binVols s N)) := rfl
  obtain ⟨hlo, hhi⟩ := expandVA_extends (binVols s N) (minLow s) (binWidth s N)
    (lastClose s) (frac * totalVolume s) N (pocIdx (binVols s N)) (pocIdx (binVols s N))
  rw [← hva] at hlo hhi
  refine ⟨hlo, hhi, ?_, ?_⟩
  · have hreach := expandVA_reaches (binVols s N) (minLow s) (binWidth s N)
      (lastClose s) (frac * totalVolume s) N (pocIdx (binVols s N))
      (pocIdx (binVols s N)) (by omega) (by omega)
    rw [← hva] at hreach
    rcases hreach with h | ⟨h1, h2⟩
    · exact h
    · have hfull : ivSum (binVols s N) 0 (N - 1) = (binVols s N).sum := by
        have hx := ivSum_full (binVols s N) (by rw [hlen]; exact hN)
        rwa [hlen] at hx
      rw [h1, h2, hlen, hfull, binVols_sum, binSum_eq_total s N hN hlh]
      calc frac * totalVolume s ≤ 1 * totalVolume s :=
            mul_le_mul_of_nonneg_right hfrac hvol.le
        _ = totalVolume s := one_mul _
  · intro hstop
    rw [hva]
    obtain ⟨m, hm⟩ := Nat.exists_eq_succ_of_ne_zero hN.ne'
    rw [hm] at hstop ⊢
    rw [expandVA, if_pos hstop]

/-- C7, witness: the amended property on the four-candle fixture. -/
theorem value_area_reaches_target_witness :
    0 < 4 ∧ (∀ c ∈ vaExample, c.low ≤ c.high) ∧ 0 < totalVolume vaExample ∧
    (7/10 : ℚ) ≤ 1 ∧
    ((vaBounds vaExample 4 (7/10)).1 ≤ pocIdx (binVols vaExample 4) ∧
     pocIdx (binVols vaExample 4) ≤ (vaBounds vaExample 4 (7/10)).2 ∧
     7/10 * totalVolume vaExample ≤
       ivSum (binVols vaExample 4) (vaBounds vaExample 4 (7/10)).1
         (vaBounds vaExample 4 (7/10)).2 ∧
     (7/10 * totalVolume vaExample ≤
         ivSum (binVols vaExample 4) (pocIdx (binVols vaExample 4))
           (pocIdx (binVols vaExample 4)) →
       vaBounds vaExample 4 (7/10) =
         (pocIdx (binVols vaExample 4), pocIdx (binVols vaExample 4)))) := by
  have hlh : ∀ c ∈ vaExample, c.low ≤ c.high := by
    simp only [vaExample, List.forall_mem_cons, List.forall_mem_nil]
    norm_num [bandCandle]
  have hvol : 0 < totalVolume vaExample := by
    norm_num [totalVolume, vaExample, bandCandle]
  exact ⟨by decide, hlh, hvol, by norm_num,
    value_area_reaches_target vaExample 4 (7/10) (by decide) hlh hvol (by norm_num)⟩

/-- C1, witness: the amended ordering property on the concrete tie batch. -/
theorem batch_rankings_sorted_desc_witness :
    (batchRankings tiePipeline ["AUSDT", "BUSDT"]).Perm
      (collectRankings tiePipeline ["AUSDT", "BUSDT"]) ∧
    (batchRankings tiePipeline ["AUSDT", "BUSDT"]).Sorted
      (fun a b => b.2.total_score ≤ a.2.total_score) :=
  batch_rankings_sorted_desc tiePipeline ["AUSDT", "BUSDT"]

/-- C8, witness: the round-trip and unclamped properties on `fibExample`. -/
theorem fib_position_roundtrip_unclamped_witness :
    (∀ f ∈ get_fibonacci_levels fibExample 1,
       f.position = (lastClose fibExample - f.swingLow) /
         (f.swingHigh - f.swingLow)) ∧
    ∃ f, get_fibonacci_levels fibExample 1 = some f ∧ 1 < f.position :=
  fib_position_roundtrip_unclamped fibExample 1
